import Mathlib

/-!
Verification of the Chess-Bot core: the FEN position codec (`fenParser.ts`),
the move-notation helpers (`algebraicNotation.ts`), the `MoveHistory` timeline
(`moveHistory.ts`) and the `ChessEngine` facade (`chessEngine.ts`).

JavaScript strings are modelled as `List Char`; the external chess.js rules
engine (the spec's "Move Legality Oracle") is modelled as an abstract
capability record, exactly as the spec prescribes for testing the core.
-/

namespace ChessBot

/-! ## JavaScript string primitives -/

/-- The JavaScript whitespace class used by `String.prototype.trim`, `\s` and
`parseInt`: the ASCII whitespace characters, NBSP (U+00A0), the Unicode
space-separator category Zs (U+1680, U+2000–U+200A, U+202F, U+205F, U+3000),
the line and paragraph separators (U+2028, U+2029), and the BOM (U+FEFF). -/
def isJsWs (c : Char) : Bool :=
  c = ' ' || c = '\t' || c = '\n' || c = '\r' || c = '\x0b' || c = '\x0c' ||
  c.toNat = 0xA0 || c.toNat = 0x1680 ||
  (0x2000 ≤ c.toNat && c.toNat ≤ 0x200A) ||
  c.toNat = 0x2028 || c.toNat = 0x2029 || c.toNat = 0x202F ||
  c.toNat = 0x205F || c.toNat = 0x3000 || c.toNat = 0xFEFF

/-- `String.prototype.trim`: drop whitespace from both ends. -/
def jsTrim (s : List Char) : List Char :=
  ((s.dropWhile isJsWs).reverse.dropWhile isJsWs).reverse

/-- `String.prototype.split(sep)` for a single-character separator.
JS semantics: `"".split(sep) = [""]`, empty fields are kept. -/
def splitOn (sep : Char) : List Char → List (List Char)
  | [] => [[]]
  | c :: cs =>
    if c = sep then [] :: splitOn sep cs
    else
      match splitOn sep cs with
      | [] => [[c]]
      | p :: ps => (c :: p) :: ps

/-- Join a list of fields with a single-character separator (inverse of `splitOn`). -/
def joinWith (sep : Char) : List (List Char) → List Char
  | [] => []
  | [p] => p
  | p :: ps => p ++ sep :: joinWith sep ps

theorem splitOn_ne_nil (sep : Char) (s : List Char) : splitOn sep s ≠ [] := by
  cases s with
  | nil => simp [splitOn]
  | cons c cs =>
    simp only [splitOn]
    split
    · simp
    · cases splitOn sep cs with
      | nil => simp
      | cons p ps => simp

theorem splitOn_eq_cons (sep : Char) (s : List Char) :
    ∃ p ps, splitOn sep s = p :: ps := by
  cases h : splitOn sep s with
  | nil => exact absurd h (splitOn_ne_nil sep s)
  | cons p ps => exact ⟨p, ps, rfl⟩

theorem joinWith_cons_cons (sep : Char) (p q : List Char) (ps : List (List Char)) :
    joinWith sep (p :: q :: ps) = p ++ sep :: joinWith sep (q :: ps) := rfl

theorem joinWith_splitOn (sep : Char) (s : List Char) :
    joinWith sep (splitOn sep s) = s := by
  induction s with
  | nil => rfl
  | cons c cs ih =>
    obtain ⟨p, ps, hps⟩ := splitOn_eq_cons sep cs
    by_cases hc : c = sep
    · simp only [splitOn, if_pos hc, hps]
      rw [joinWith_cons_cons]
      rw [hps] at ih
      simp [ih, hc]
    · simp only [splitOn, if_neg hc, hps]
      rw [hps] at ih
      cases ps with
      | nil => simpa [joinWith] using ih
      | cons q qs =>
        have h2 : p ++ sep :: joinWith sep (q :: qs) = cs := by
          rw [← joinWith_cons_cons]; exact ih
        rw [joinWith_cons_cons, List.cons_append, h2]

theorem length_splitOn (sep : Char) (s : List Char) :
    (splitOn sep s).length = s.count sep + 1 := by
  induction s with
  | nil => rfl
  | cons c cs ih =>
    obtain ⟨p, ps, hps⟩ := splitOn_eq_cons sep cs
    rw [hps] at ih
    by_cases hc : c = sep
    · have hsep : (sep == c) = true := by simp [hc]
      simp only [List.length_cons] at ih
      simp [splitOn, if_pos hc, hps, List.count_cons, hsep]
      omega
    · have hsep : (sep == c) = false := by
        simp only [beq_eq_false_iff_ne, ne_eq]
        intro hcc; exact hc hcc.symm
      simp only [List.length_cons] at ih
      simp [splitOn, if_neg hc, hps, List.count_cons, hsep]
      omega

theorem splitOn_append_sep (sep : Char) (xs ys : List Char) (h : sep ∉ xs) :
    splitOn sep (xs ++ sep :: ys) = xs :: splitOn sep ys := by
  induction xs with
  | nil =>
    obtain ⟨p, ps, hps⟩ := splitOn_eq_cons sep ys
    simp [splitOn, hps]
  | cons c cs ih =>
    have hc : ¬ c = sep := by
      intro hcc; exact h (hcc ▸ List.mem_cons_self c cs)
    have hcs : sep ∉ cs := fun hm => h (List.mem_cons_of_mem c hm)
    rw [List.cons_append]
    simp only [splitOn, if_neg hc, ih hcs]

/-- Canonical decimal numeral of a natural number (JS `${n}` for n ≥ 0). -/
def natRepr (n : Nat) : List Char := (Nat.repr n).toList

/-- JS number-to-string for integers: decimal digits with a `-` sign when negative. -/
def intRepr (i : Int) : List Char :=
  if i < 0 then '-' :: natRepr i.natAbs else natRepr i.toNat

/-! ## JavaScript `parseInt` -/

/-- Value of one digit character in the given base, if valid. -/
def digitVal (base : Nat) (c : Char) : Option Nat :=
  if '0' ≤ c ∧ c ≤ '9' ∧ c.toNat - '0'.toNat < base then some (c.toNat - '0'.toNat)
  else if base = 16 ∧ 'a' ≤ c ∧ c ≤ 'f' then some (c.toNat - 'a'.toNat + 10)
  else if base = 16 ∧ 'A' ≤ c ∧ c ≤ 'F' then some (c.toNat - 'A'.toNat + 10)
  else none

/-- Accumulate the value of a digit string. -/
def digitsVal (base : Nat) (ds : List Char) : Nat :=
  ds.foldl (fun acc c => acc * base + (digitVal base c).getD 0) 0

/-- JS `parseInt(s)` (radix argument omitted): skip leading whitespace, read an
optional sign, detect a `0x`/`0X` hex prefix, then take the longest valid digit
prefix; `none` models `NaN` (no digits). -/
def jsParseInt (s : List Char) : Option Int :=
  let s1 := s.dropWhile isJsWs
  let signed : Int × List Char :=
    match s1 with
    | '-' :: r => (-1, r)
    | '+' :: r => (1, r)
    | _ => (1, s1)
  let based : Nat × List Char :=
    match signed.2 with
    | '0' :: 'x' :: r => (16, r)
    | '0' :: 'X' :: r => (16, r)
    | _ => (10, signed.2)
  let ds := based.2.takeWhile (fun c => (digitVal based.1 c).isSome)
  if ds.isEmpty then none
  else some (signed.1 * (digitsVal based.1 ds : Int))

/-! ## FEN codec (`fenParser.ts`) -/

/-- Characters allowed by `FEN_PIECE_PATTERN = /^[rnbqkpRNBQKP1-8]+$/` for one rank. -/
def isFenPieceChar (c : Char) : Bool :=
  c = 'r' || c = 'n' || c = 'b' || c = 'q' || c = 'k' || c = 'p' ||
  c = 'R' || c = 'N' || c = 'B' || c = 'Q' || c = 'K' || c = 'P' ||
  ('1' ≤ c && c ≤ '8')

/-- `FEN_CASTLING_PATTERN = /^(KQkq|[KQkq]{1,4}|-)$/`. -/
def castlingOk (c : List Char) : Bool :=
  c == "KQkq".toList ||
  (decide (1 ≤ c.length) && decide (c.length ≤ 4) &&
    c.all (fun ch => ch = 'K' || ch = 'Q' || ch = 'k' || ch = 'q')) ||
  c == ['-']

/-- `FEN_EN_PASSANT_PATTERN = /^([a-h][36]|-)$/`. -/
def enPassantOk : List Char → Bool
  | ['-'] => true
  | [f, r] => decide ('a' ≤ f) && decide (f ≤ 'h') && (r == '3' || r == '6')
  | _ => false

/-- Number of board squares described by one rank field (digits 1–8 expand to
that many empty squares, any other character is one square). -/
def squareCount (rank : List Char) : Nat :=
  rank.foldl (fun acc c => acc + (if '1' ≤ c ∧ c ≤ '8' then c.toNat - '0'.toNat else 1)) 0

/-- The per-rank loop of `validateFEN`: returns the first error message, if any.
`i` is the 0-based index so the message names rank `8 - i`. -/
def checkRanks (i : Nat) : List (List Char) → Option (List Char)
  | [] => none
  | r :: rs =>
    if ¬ (r ≠ [] ∧ r.all isFenPieceChar) then
      some ("Invalid characters in rank ".toList ++ natRepr (8 - i))
    else if squareCount r ≠ 8 then
      some (("Rank ".toList ++ natRepr (8 - i)) ++ " does not have exactly 8 squares".toList)
    else checkRanks (i + 1) rs

/-- Result record of `validateFEN` (`FenParseResult` in `fenParser.ts`). -/
structure FenParseResult where
  isValid : Bool
  error : Option (List Char) := none
  position : Option (List Char) := none
  activeColor : Option (List Char) := none
  castlingRights : Option (List Char) := none
  enPassantTarget : Option (List Char) := none
  halfmoveClock : Option Int := none
  fullmoveNumber : Option Int := none
  deriving Repr, DecidableEq

/-- `validateFEN` from `fenParser.ts`: trim, split into exactly 6 fields, then
validate placement, side to move, castling, en passant and the two clocks. -/
def validateFEN (fen : List Char) : FenParseResult :=
  if fen.isEmpty then { isValid := false, error := some "FEN string is required".toList }
  else
    let parts := splitOn ' ' (jsTrim fen)
    if parts.length ≠ 6 then
      { isValid := false, error := some "FEN must have exactly 6 space-separated parts".toList }
    else
      let position := parts.getD 0 []
      let activeColor := parts.getD 1 []
      let castling := parts.getD 2 []
      let enPassant := parts.getD 3 []
      let halfmove := parts.getD 4 []
      let fullmove := parts.getD 5 []
      let ranks := splitOn '/' position
      if ranks.length ≠ 8 then
        { isValid := false, error := some "Position must have 8 ranks separated by /".toList }
      else
        match checkRanks 0 ranks with
        | some err => { isValid := false, error := some err }
        | none =>
          if ¬ (activeColor = ['w'] ∨ activeColor = ['b']) then
            { isValid := false, error := some "Active color must be w or b".toList }
          else if ¬ castlingOk castling then
            { isValid := false, error := some "Invalid castling rights format".toList }
          else if ¬ enPassantOk enPassant then
            { isValid := false, error := some "Invalid en passant target square".toList }
          else
            match jsParseInt halfmove with
            | none =>
              { isValid := false,
                error := some "Halfmove clock must be a non-negative integer".toList }
            | some halfmoveNum =>
              if halfmoveNum < 0 then
                { isValid := false,
                  error := some "Halfmove clock must be a non-negative integer".toList }
              else
                match jsParseInt fullmove with
                | none =>
                  { isValid := false,
                    error := some "Fullmove number must be a positive integer".toList }
                | some fullmoveNum =>
                  if fullmoveNum < 1 then
                    { isValid := false,
                      error := some "Fullmove number must be a positive integer".toList }
                  else
                    { isValid := true,
                      position := some position,
                      activeColor := some activeColor,
                      castlingRights := some castling,
                      enPassantTarget := some enPassant,
                      halfmoveClock := some halfmoveNum,
                      fullmoveNumber := some fullmoveNum }

/-- `createFEN` from `fenParser.ts`: join the six fields with single spaces and
validate the result; `none` models the thrown `Invalid FEN parts` error. -/
def createFEN (position activeColor castlingRights enPassantTarget : List Char)
    (halfmoveClock fullmoveNumber : Int) : Option (List Char) :=
  let fen := position ++ ' ' :: activeColor ++ ' ' :: castlingRights ++ ' ' ::
    enPassantTarget ++ ' ' :: intRepr halfmoveClock ++ ' ' :: intRepr fullmoveNumber
  if (validateFEN fen).isValid then some fen else none


/-! ## Structure of a valid `validateFEN` result -/

theorem list_six_of_length (l : List (List Char)) (h : l.length = 6) :
    ∃ a b c d e f, l = [a, b, c, d, e, f] := by
  match l, h with
  | [a, b, c, d, e, f], _ => exact ⟨a, b, c, d, e, f, rfl⟩

/-- When `validateFEN` reports a valid record, the trimmed input splits into the
six returned fields and the two clocks are the `parseInt` values of fields 5/6. -/
theorem validateFEN_spec (x : List Char) (h : (validateFEN x).isValid = true) :
    ∃ a b c d e f hm fm, splitOn ' ' (jsTrim x) = [a, b, c, d, e, f] ∧
      jsParseInt e = some hm ∧ jsParseInt f = some fm ∧ castlingOk c = true ∧
      validateFEN x =
        { isValid := true, position := some a, activeColor := some b,
          castlingRights := some c, enPassantTarget := some d,
          halfmoveClock := some hm, fullmoveNumber := some fm } := by
  revert h
  simp only [validateFEN]
  intro h
  split at h
  · simp at h
  · split at h
    · simp at h
    · rename_i hempty hlen
      obtain ⟨a, b, c, d, e, f, hparts⟩ :=
        list_six_of_length _ (by omega : (splitOn ' ' (jsTrim x)).length = 6)
      rw [hparts] at h ⊢
      simp only [List.getD] at h ⊢
      split at h
      · simp at h
      · split at h
        · simp at h
        · split at h
          · simp at h
          · split at h
            · simp at h
            · split at h
              · simp at h
              · rename_i h8 hrk hac hca hep
                split at h
                · simp at h
                · rename_i hm hhm
                  split at h
                  · simp at h
                  · split at h
                    · simp at h
                    · rename_i fm hfm
                      split at h
                      · simp at h
                      · exact ⟨a, b, c, d, e, f, hm, fm, rfl, hhm, hfm, not_not.mp hca, by
                          simp_all
                          have hb : ¬ (¬ b = ['w'] ∧ ¬ b = ['b']) := by tauto
                          rw [if_neg hb, if_neg (by omega : ¬ hm < 0),
                            if_neg (by omega : ¬ fm < 1)]⟩

/-! ## Claim C1: FEN parse/serialize round trip -/

/-- Claim C1, counterexample: the position text `"8/8/8/8/8/8/8/8 w - - 00 1"` is
accepted by `validateFEN` (so it is syntactically valid in the claim's sense),
but `createFEN` applied to the returned fields renders the halfmove clock
canonically as `0`, so the round trip does not reproduce the input. -/
theorem fen_roundtrip_counterexample :
    (validateFEN "8/8/8/8/8/8/8/8 w - - 00 1".toList).isValid = true ∧
    createFEN ((validateFEN "8/8/8/8/8/8/8/8 w - - 00 1".toList).position.getD [])
        ((validateFEN "8/8/8/8/8/8/8/8 w - - 00 1".toList).activeColor.getD [])
        ((validateFEN "8/8/8/8/8/8/8/8 w - - 00 1".toList).castlingRights.getD [])
        ((validateFEN "8/8/8/8/8/8/8/8 w - - 00 1".toList).enPassantTarget.getD [])
        ((validateFEN "8/8/8/8/8/8/8/8 w - - 00 1".toList).halfmoveClock.getD 0)
        ((validateFEN "8/8/8/8/8/8/8/8 w - - 00 1".toList).fullmoveNumber.getD 1) ≠
      some "8/8/8/8/8/8/8/8 w - - 00 1".toList := by
  constructor
  · decide
  · decide

/-- Claim C1 (amended): serializing the fields returned by `validateFEN x` with
`createFEN` reproduces `x` exactly, provided `x` carries no leading/trailing
whitespace and its halfmove and fullmove fields are the canonical decimal
numerals of the parsed values. -/
theorem fen_roundtrip_of_canonical (x : List Char)
    (hvalid : (validateFEN x).isValid = true)
    (htrim : jsTrim x = x)
    (hhalf : (splitOn ' ' x).getD 4 [] = intRepr ((validateFEN x).halfmoveClock.getD 0))
    (hfull : (splitOn ' ' x).getD 5 [] = intRepr ((validateFEN x).fullmoveNumber.getD 1)) :
    createFEN ((validateFEN x).position.getD []) ((validateFEN x).activeColor.getD [])
      ((validateFEN x).castlingRights.getD []) ((validateFEN x).enPassantTarget.getD [])
      ((validateFEN x).halfmoveClock.getD 0) ((validateFEN x).fullmoveNumber.getD 1) =
      some x := by
  obtain ⟨a, b, c, d, e, f, hm, fm, hparts, hhm, hfm, hok, heq⟩ := validateFEN_spec x hvalid
  rw [htrim] at hparts
  rw [heq] at hhalf hfull ⊢
  simp only [Option.getD_some] at hhalf hfull ⊢
  rw [hparts] at hhalf hfull
  simp only [List.getD, List.get?, Option.getD_some] at hhalf hfull
  have hjoin := joinWith_splitOn ' ' x
  rw [hparts] at hjoin
  rw [joinWith_cons_cons, joinWith_cons_cons, joinWith_cons_cons, joinWith_cons_cons,
    joinWith_cons_cons] at hjoin
  simp only [joinWith] at hjoin
  simp only [createFEN]
  rw [← hhalf, ← hfull]
  rw [show a ++ ' ' :: b ++ ' ' :: c ++ ' ' :: d ++ ' ' :: e ++ ' ' :: f = x from by
    simpa [List.append_assoc] using hjoin]
  rw [if_pos hvalid]


/-- Witness for `fen_roundtrip_of_canonical` at the standard starting position. -/
theorem fen_roundtrip_of_canonical_witness :
    createFEN
      ((validateFEN "rnbqkbnr/pppppppp/8/8/8/8/PPPPPPPP/RNBQKBNR w KQkq - 0 1".toList).position.getD [])
      ((validateFEN "rnbqkbnr/pppppppp/8/8/8/8/PPPPPPPP/RNBQKBNR w KQkq - 0 1".toList).activeColor.getD [])
      ((validateFEN "rnbqkbnr/pppppppp/8/8/8/8/PPPPPPPP/RNBQKBNR w KQkq - 0 1".toList).castlingRights.getD [])
      ((validateFEN "rnbqkbnr/pppppppp/8/8/8/8/PPPPPPPP/RNBQKBNR w KQkq - 0 1".toList).enPassantTarget.getD [])
      ((validateFEN "rnbqkbnr/pppppppp/8/8/8/8/PPPPPPPP/RNBQKBNR w KQkq - 0 1".toList).halfmoveClock.getD 0)
      ((validateFEN "rnbqkbnr/pppppppp/8/8/8/8/PPPPPPPP/RNBQKBNR w KQkq - 0 1".toList).fullmoveNumber.getD 1) =
      some "rnbqkbnr/pppppppp/8/8/8/8/PPPPPPPP/RNBQKBNR w KQkq - 0 1".toList :=
  fen_roundtrip_of_canonical _ (by decide) (by decide) (by decide) (by decide)

/-! ## Claim C8: the castling-rights pattern -/

theorem dropWhile_eq_self_of_head (p : Char → Bool) (s : List Char)
    (h : ∀ c, s.head? = some c → p c = false) : s.dropWhile p = s := by
  cases s with
  | nil => rfl
  | cons a t =>
    have ha := h a rfl
    simp [List.dropWhile, ha]

theorem jsTrim_eq_self_of_ends (s : List Char)
    (h1 : ∀ c, s.head? = some c → isJsWs c = false)
    (h2 : ∀ c, s.getLast? = some c → isJsWs c = false) : jsTrim s = s := by
  unfold jsTrim
  rw [dropWhile_eq_self_of_head _ _ h1]
  rw [dropWhile_eq_self_of_head _ _ (by
    intro c hc
    exact h2 c (by rwa [List.head?_reverse] at hc))]
  exact List.reverse_reverse s

/-- A family of position texts that are valid except possibly for the castling
field: `"8/8/8/8/8/8/8/8 w <c> - 0 1"`. -/
def mkCastlingFEN (c : List Char) : List Char :=
  "8/8/8/8/8/8/8/8 w ".toList ++ c ++ " - 0 1".toList

theorem mkCastlingFEN_eq (c : List Char) :
    mkCastlingFEN c = "8/8/8/8/8/8/8/8".toList ++ ' ' :: (['w'] ++ ' ' ::
      (c ++ ' ' :: (['-'] ++ ' ' :: (['0'] ++ ' ' :: ['1'])))) := by
  simp [mkCastlingFEN]

theorem jsTrim_mkCastlingFEN (c : List Char) : jsTrim (mkCastlingFEN c) = mkCastlingFEN c := by
  apply jsTrim_eq_self_of_ends
  · intro ch hch
    rw [mkCastlingFEN_eq] at hch
    simp only [List.head?] at hch
    cases hch
    decide
  · intro ch hch
    have hne : (" - 0 1".toList : List Char) ≠ [] := by decide
    simp only [mkCastlingFEN] at hch
    rw [List.getLast?_append_of_ne_nil _ hne] at hch
    cases hch.symm.trans (by decide : (" - 0 1".toList : List Char).getLast? = some '1')
    decide

theorem splitOn_mkCastlingFEN (c : List Char) (hsp : ' ' ∉ c) :
    splitOn ' ' (mkCastlingFEN c) =
      ["8/8/8/8/8/8/8/8".toList, ['w'], c, ['-'], ['0'], ['1']] := by
  rw [mkCastlingFEN_eq]
  rw [splitOn_append_sep ' ' _ _ (by decide)]
  rw [splitOn_append_sep ' ' _ _ (by decide)]
  rw [splitOn_append_sep ' ' _ _ hsp]
  rw [splitOn_append_sep ' ' _ _ (by decide)]
  rw [splitOn_append_sep ' ' _ _ (by decide)]
  rfl

theorem validateFEN_mkCastlingFEN_of_ok (c : List Char) (hsp : ' ' ∉ c)
    (hc : castlingOk c = true) :
    (validateFEN (mkCastlingFEN c)).isValid = true := by
  have hne : (mkCastlingFEN c).isEmpty = false := by
    rw [mkCastlingFEN_eq]; rfl
  have hrl : (splitOn '/'
      ['8', '/', '8', '/', '8', '/', '8', '/', '8', '/', '8', '/', '8', '/', '8']).length = 8 := by
    decide
  have hck : checkRanks 0 (splitOn '/'
      ['8', '/', '8', '/', '8', '/', '8', '/', '8', '/', '8', '/', '8', '/', '8']) = none := by
    decide
  have hp0 : jsParseInt ['0'] = some 0 := by decide
  have hp1 : jsParseInt ['1'] = some 1 := by decide
  have hep2 : enPassantOk ['-'] = true := by decide
  simp only [validateFEN, hne, jsTrim_mkCastlingFEN, splitOn_mkCastlingFEN c hsp]
  simp [hrl, hck, hp0, hp1, hep2, hc]

/-- The semantics of `FEN_CASTLING_PATTERN`: the empty-rights marker, or any
1–4 letters drawn from `K`, `Q`, `k`, `q` — order and repetition unrestricted. -/
theorem castlingOk_iff (c : List Char) :
    castlingOk c = true ↔
      c = ['-'] ∨ (1 ≤ c.length ∧ c.length ≤ 4 ∧
        ∀ ch ∈ c, ch = 'K' ∨ ch = 'Q' ∨ ch = 'k' ∨ ch = 'q') := by
  simp only [castlingOk, Bool.or_eq_true, beq_iff_eq, Bool.and_eq_true, decide_eq_true_eq,
    List.all_eq_true]
  constructor
  · rintro ((rfl | ⟨⟨h1, h2⟩, h3⟩) | rfl)
    · right
      refine ⟨by decide, by decide, ?_⟩
      intro ch hch
      fin_cases hch <;> simp
    · right
      refine ⟨h1, h2, ?_⟩
      intro ch hch
      have h4 := h3 ch hch
      simp only [Bool.or_eq_true, decide_eq_true_eq] at h4
      tauto
    · left; rfl
  · rintro (rfl | ⟨h1, h2, h3⟩)
    · right; rfl
    · left; right
      refine ⟨⟨h1, h2⟩, ?_⟩
      intro ch hch
      have h4 := h3 ch hch
      tauto

/-- Claim C8, counterexample: the claim asserts that the out-of-order castling
field `qK` (and the repeated `KK`) are reported invalid, but `validateFEN`
accepts both — the regex alternative `[KQkq]{1,4}` ignores order and repetition. -/
theorem castling_pattern_counterexample :
    (validateFEN "8/8/8/8/8/8/8/8 w qK - 0 1".toList).isValid = true ∧
    (validateFEN "8/8/8/8/8/8/8/8 w KK - 0 1".toList).isValid = true := by
  constructor
  · decide
  · decide

/-- Claim C8 (amended): `validateFEN` accepts a castling field exactly when it
is the empty-rights marker or any nonempty string of at most four characters
drawn from the rights letters, regardless of order or repetition. -/
theorem castling_field_characterization (c : List Char) :
    (validateFEN (mkCastlingFEN c)).isValid = true ↔
      c = ['-'] ∨ (1 ≤ c.length ∧ c.length ≤ 4 ∧
        ∀ ch ∈ c, ch = 'K' ∨ ch = 'Q' ∨ ch = 'k' ∨ ch = 'q') := by
  by_cases hsp : ' ' ∈ c
  · constructor
    · intro h
      obtain ⟨a, b, c', d, e, f, hm, fm, hparts, _, _, _, _⟩ := validateFEN_spec _ h
      have hlen : (splitOn ' ' (jsTrim (mkCastlingFEN c))).length = 6 := by
        rw [hparts]; rfl
      rw [jsTrim_mkCastlingFEN, length_splitOn] at hlen
      have hcnt : (mkCastlingFEN c).count ' ' =
          ("8/8/8/8/8/8/8/8 w ".toList).count ' ' + c.count ' ' +
            (" - 0 1".toList).count ' ' := by
        simp [mkCastlingFEN, List.count_append]
        omega
      have h1 : 1 ≤ c.count ' ' := List.count_pos_iff.mpr hsp
      have h2 : ("8/8/8/8/8/8/8/8 w ".toList).count ' ' = 2 := by decide
      have h3 : ((" - 0 1".toList : List Char)).count ' ' = 3 := by decide
      omega
    · rintro (rfl | ⟨_, _, h3⟩)
      · exact absurd hsp (by decide)
      · rcases h3 ' ' hsp with h | h | h | h <;> exact absurd h (by decide)
  · constructor
    · intro h
      obtain ⟨a, b, c', d, e, f, hm, fm, hparts, _, _, hok, _⟩ := validateFEN_spec _ h
      rw [jsTrim_mkCastlingFEN, splitOn_mkCastlingFEN c hsp] at hparts
      have hcc : c' = c := by
        simp only [List.cons.injEq] at hparts
        exact hparts.2.2.1.symm
      rw [← castlingOk_iff, ← hcc]
      exact hok
    · intro h
      exact validateFEN_mkCastlingFEN_of_ok c hsp (castlingOk_iff c |>.mpr h)


/-! ## Notation normalization (`algebraicNotation.ts`) -/

/-- JS `\\d`: an ASCII decimal digit. -/
def isDigitCh (c : Char) : Bool := '0' ≤ c && c ≤ '9'

/-- The trailing annotation glyph class `[!?+#]`. -/
def isGlyph (c : Char) : Bool := c = '!' || c = '?' || c = '+' || c = '#'

/-- `replace(/^\\d+\\.+\\s*/, '')`: strip a leading move-number prefix — one or
more digits, one or more dots, optional whitespace; no change if the input does
not start with that pattern. -/
def stripMoveNum (s : List Char) : List Char :=
  let ds := s.takeWhile isDigitCh
  if ds.isEmpty then s
  else
    let r1 := s.dropWhile isDigitCh
    let dots := r1.takeWhile (fun c => c = '.')
    if dots.isEmpty then s
    else (r1.dropWhile (fun c => c = '.')).dropWhile isJsWs

/-- `replace(/[!?+#]*$/, '')`: remove the maximal trailing run of annotation
glyphs (the first and only match of the anchored pattern). -/
def stripTrailGlyphs (s : List Char) : List Char :=
  (s.reverse.dropWhile isGlyph).reverse

/-- `replace(/0-0-0/g, 'O-O-O')`: leftmost-first global replacement, scanning
resumes after each replaced occurrence. -/
def replaceOOO : List Char → List Char
  | [] => []
  | c :: rest =>
    if c = '0' ∧ rest.take 4 = ['-', '0', '-', '0'] then
      'O' :: '-' :: 'O' :: '-' :: 'O' :: replaceOOO (rest.drop 4)
    else c :: replaceOOO rest
termination_by s => s.length
decreasing_by
  · simp; omega
  · simp

/-- `replace(/0-0/g, 'O-O')`: leftmost-first global replacement. -/
def replaceOO : List Char → List Char
  | [] => []
  | c :: rest =>
    if c = '0' ∧ rest.take 2 = ['-', '0'] then
      'O' :: '-' :: 'O' :: replaceOO (rest.drop 2)
    else c :: replaceOO rest
termination_by s => s.length
decreasing_by
  · simp; omega
  · simp

theorem replaceOOO_nil : replaceOOO [] = [] := by rw [replaceOOO]

theorem replaceOO_nil : replaceOO [] = [] := by rw [replaceOO]

/-- `replace(/\\s+/g, '')`: delete every whitespace character. -/
def collapseWs (s : List Char) : List Char := s.filter (fun c => !isJsWs c)

/-- `sanitizeNotation` from `algebraicNotation.ts`: trim, strip a leading move
number, strip trailing annotation glyphs, canonicalize zero-based castling
glyphs, and remove whitespace; empty input short-circuits to the empty token. -/
def sanitizeNotation (s : List Char) : List Char :=
  if s.isEmpty then []
  else collapseWs (replaceOO (replaceOOO (stripTrailGlyphs (stripMoveNum (jsTrim s)))))


/-! ### Helper lemmas for normalization idempotence -/

theorem mem_of_head_some (s : List Char) (c : Char) (h : s.head? = some c) : c ∈ s := by
  cases s with
  | nil => simp at h
  | cons a t =>
    simp only [List.head?_cons, Option.some.injEq] at h
    exact h ▸ List.mem_cons_self a t

theorem mem_of_getLast_some (s : List Char) (c : Char) (h : s.getLast? = some c) : c ∈ s := by
  have hr : s.reverse.head? = some c := by rwa [List.head?_reverse]
  have := mem_of_head_some s.reverse c hr
  simpa using this

theorem jsTrim_eq_self_of_all (s : List Char) (h : ∀ c ∈ s, isJsWs c = false) :
    jsTrim s = s :=
  jsTrim_eq_self_of_ends s (fun c hc => h c (mem_of_head_some s c hc))
    (fun c hc => h c (mem_of_getLast_some s c hc))

theorem collapseWs_eq_self_of_all (s : List Char) (h : ∀ c ∈ s, isJsWs c = false) :
    collapseWs s = s := by
  unfold collapseWs
  apply List.filter_eq_self.mpr
  intro a ha
  simp [h a ha]

theorem stripMoveNum_eq_self_of_head (s : List Char)
    (h : ∀ c, s.head? = some c → isDigitCh c = false) : stripMoveNum s = s := by
  cases s with
  | nil => rfl
  | cons a t =>
    have ha := h a rfl
    simp [stripMoveNum, List.takeWhile_cons, ha]

theorem head_dropWhile_false (p : Char → Bool) (l : List Char) (c : Char)
    (h : (l.dropWhile p).head? = some c) : p c = false := by
  induction l with
  | nil => simp at h
  | cons a t ih =>
    by_cases ha : p a = true
    · rw [List.dropWhile_cons_of_pos ha] at h
      exact ih h
    · rw [List.dropWhile_cons_of_neg ha] at h
      simp only [List.head?_cons, Option.some.injEq] at h
      subst h
      simpa using ha

theorem stripTrailGlyphs_decomp (s : List Char) : ∃ u, s = stripTrailGlyphs s ++ u := by
  obtain ⟨u, hu⟩ := List.dropWhile_suffix (l := s.reverse) (p := isGlyph)
  refine ⟨u.reverse, ?_⟩
  have h2 := congrArg List.reverse hu
  simp only [List.reverse_append] at h2
  rw [List.reverse_reverse] at h2
  exact h2.symm

theorem stripTrailGlyphs_getLast (s : List Char) (c : Char)
    (h : (stripTrailGlyphs s).getLast? = some c) : isGlyph c = false := by
  unfold stripTrailGlyphs at h
  rw [List.getLast?_reverse] at h
  exact head_dropWhile_false isGlyph s.reverse c h

theorem stripTrailGlyphs_eq_self (s : List Char)
    (h : ∀ c, s.getLast? = some c → isGlyph c = false) : stripTrailGlyphs s = s := by
  unfold stripTrailGlyphs
  rw [dropWhile_eq_self_of_head _ _ (fun c hc => h c (by rwa [List.head?_reverse] at hc)),
    List.reverse_reverse]

theorem stripTrailGlyphs_head (s : List Char) (c : Char)
    (h : (stripTrailGlyphs s).head? = some c) : s.head? = some c := by
  obtain ⟨u, hu⟩ := stripTrailGlyphs_decomp s
  rw [hu]
  cases hst : stripTrailGlyphs s with
  | nil => rw [hst] at h; simp at h
  | cons a t =>
    rw [hst] at h
    simp only [List.head?_cons, Option.some.injEq] at h
    simp [h]

theorem stripTrailGlyphs_subset (s : List Char) : ∀ c ∈ stripTrailGlyphs s, c ∈ s := by
  intro c hc
  obtain ⟨u, hu⟩ := stripTrailGlyphs_decomp s
  rw [hu]
  exact List.mem_append_left u hc

/-! ### Lemmas about the castling-glyph replacements -/

theorem replaceOO_subset (s : List Char) :
    ∀ c ∈ replaceOO s, c ∈ s ∨ c = 'O' ∨ c = '-' := by
  induction s using replaceOO.induct with
  | case1 => intro c hc; simp [replaceOO] at hc
  | case2 c rest hcond ih =>
    intro x hx
    rw [replaceOO, if_pos hcond] at hx
    simp only [List.mem_cons] at hx
    rcases hx with rfl | rfl | rfl | hx
    · right; left; rfl
    · right; right; rfl
    · right; left; rfl
    · rcases ih x hx with hm | h
      · left
        have hsub : rest.drop 2 <:+ rest := List.drop_suffix 2 rest
        exact List.mem_cons_of_mem c (hsub.subset hm)
      · right; exact h
  | case3 c rest hcond ih =>
    intro x hx
    rw [replaceOO, if_neg hcond] at hx
    simp only [List.mem_cons] at hx
    rcases hx with rfl | hx
    · left; exact List.mem_cons_self x rest
    · rcases ih x hx with hm | h
      · left; exact List.mem_cons_of_mem c hm
      · right; exact h

theorem replaceOOO_subset (s : List Char) :
    ∀ c ∈ replaceOOO s, c ∈ s ∨ c = 'O' ∨ c = '-' := by
  induction s using replaceOOO.induct with
  | case1 => intro c hc; simp [replaceOOO] at hc
  | case2 c rest hcond ih =>
    intro x hx
    rw [replaceOOO, if_pos hcond] at hx
    simp only [List.mem_cons] at hx
    rcases hx with rfl | rfl | rfl | rfl | rfl | hx
    · right; left; rfl
    · right; right; rfl
    · right; left; rfl
    · right; right; rfl
    · right; left; rfl
    · rcases ih x hx with hm | h
      · left
        have hsub : rest.drop 4 <:+ rest := List.drop_suffix 4 rest
        exact List.mem_cons_of_mem c (hsub.subset hm)
      · right; exact h
  | case3 c rest hcond ih =>
    intro x hx
    rw [replaceOOO, if_neg hcond] at hx
    simp only [List.mem_cons] at hx
    rcases hx with rfl | hx
    · left; exact List.mem_cons_self x rest
    · rcases ih x hx with hm | h
      · left; exact List.mem_cons_of_mem c hm
      · right; exact h


theorem replaceOO_head_inv (s : List Char) (c : Char)
    (h : (replaceOO s).head? = some c) : s.head? = some c ∨ c = 'O' := by
  cases s with
  | nil => simp [replaceOO] at h
  | cons a rest =>
    by_cases hc : a = '0' ∧ rest.take 2 = ['-', '0']
    · rw [replaceOO, if_pos hc] at h
      simp only [List.head?_cons, Option.some.injEq] at h
      right; exact h.symm
    · rw [replaceOO, if_neg hc] at h
      simp only [List.head?_cons, Option.some.injEq] at h
      left; simp [h]

theorem replaceOOO_head_inv (s : List Char) (c : Char)
    (h : (replaceOOO s).head? = some c) : s.head? = some c ∨ c = 'O' := by
  cases s with
  | nil => simp [replaceOOO] at h
  | cons a rest =>
    by_cases hc : a = '0' ∧ rest.take 4 = ['-', '0', '-', '0']
    · rw [replaceOOO, if_pos hc] at h
      simp only [List.head?_cons, Option.some.injEq] at h
      right; exact h.symm
    · rw [replaceOOO, if_neg hc] at h
      simp only [List.head?_cons, Option.some.injEq] at h
      left; simp [h]

theorem getLast?_cons_ne (a : Char) (l : List Char) (h : l ≠ []) :
    (a :: l).getLast? = l.getLast? := by
  cases l with
  | nil => exact absurd rfl h
  | cons b t => exact List.getLast?_cons_cons

theorem replaceOO_length (s : List Char) : (replaceOO s).length = s.length := by
  induction s using replaceOO.induct with
  | case1 => simp [replaceOO]
  | case2 c rest hcond ih =>
    have hrest : rest = '-' :: '0' :: rest.drop 2 := by
      conv_lhs => rw [← List.take_append_drop 2 rest]
      rw [hcond.2]
      rfl
    rw [replaceOO, if_pos hcond]
    simp only [List.length_cons, ih]
    conv_rhs => rw [hrest]
    simp
  | case3 c rest hcond ih =>
    rw [replaceOO, if_neg hcond]
    simp [ih]

theorem replaceOOO_length (s : List Char) : (replaceOOO s).length = s.length := by
  induction s using replaceOOO.induct with
  | case1 => simp [replaceOOO]
  | case2 c rest hcond ih =>
    have hrest : rest = '-' :: '0' :: '-' :: '0' :: rest.drop 4 := by
      conv_lhs => rw [← List.take_append_drop 4 rest]
      rw [hcond.2]
      rfl
    rw [replaceOOO, if_pos hcond]
    simp only [List.length_cons, ih]
    conv_rhs => rw [hrest]
    simp
  | case3 c rest hcond ih =>
    rw [replaceOOO, if_neg hcond]
    simp [ih]

theorem replaceOO_ne_nil (s : List Char) (h : s ≠ []) : replaceOO s ≠ [] := by
  intro hr
  apply h
  have := replaceOO_length s
  rw [hr] at this
  exact List.length_eq_zero.mp this.symm

theorem replaceOOO_ne_nil (s : List Char) (h : s ≠ []) : replaceOOO s ≠ [] := by
  intro hr
  apply h
  have := replaceOOO_length s
  rw [hr] at this
  exact List.length_eq_zero.mp this.symm

theorem replaceOO_getLast (s : List Char) :
    (replaceOO s).getLast? = s.getLast? ∨ (replaceOO s).getLast? = some 'O' := by
  induction s using replaceOO.induct with
  | case1 => left; simp [replaceOO]
  | case2 c rest hcond ih =>
    have hrest : rest = '-' :: '0' :: rest.drop 2 := by
      conv_lhs => rw [← List.take_append_drop 2 rest]
      rw [hcond.2]
      rfl
    rw [replaceOO, if_pos hcond]
    by_cases hd : rest.drop 2 = []
    · right
      rw [hd, show replaceOO [] = [] from by simp [replaceOO]]
      rfl
    · have hrd : replaceOO (rest.drop 2) ≠ [] := replaceOO_ne_nil _ hd
      have hL : ('O' :: '-' :: 'O' :: replaceOO (rest.drop 2)).getLast? =
          (replaceOO (rest.drop 2)).getLast? := by
        rw [getLast?_cons_ne _ _ (by simp), getLast?_cons_ne _ _ (by simp),
          getLast?_cons_ne _ _ hrd]
      have hR : (c :: rest).getLast? = (rest.drop 2).getLast? := by
        rw [getLast?_cons_ne _ _ (by rw [hrest]; simp)]
        conv_lhs => rw [hrest]
        rw [getLast?_cons_ne _ _ (by simp), getLast?_cons_ne _ _ hd]
      rw [hL, hR]
      exact ih
  | case3 c rest hcond ih =>
    rw [replaceOO, if_neg hcond]
    by_cases hd : rest = []
    · left; rw [hd, show replaceOO [] = [] from by simp [replaceOO]]
    · have hrd : replaceOO rest ≠ [] := replaceOO_ne_nil _ hd
      rw [getLast?_cons_ne _ _ hrd, getLast?_cons_ne _ _ hd]
      exact ih

theorem replaceOOO_getLast (s : List Char) :
    (replaceOOO s).getLast? = s.getLast? ∨ (replaceOOO s).getLast? = some 'O' := by
  induction s using replaceOOO.induct with
  | case1 => left; simp [replaceOOO]
  | case2 c rest hcond ih =>
    have hrest : rest = '-' :: '0' :: '-' :: '0' :: rest.drop 4 := by
      conv_lhs => rw [← List.take_append_drop 4 rest]
      rw [hcond.2]
      rfl
    rw [replaceOOO, if_pos hcond]
    by_cases hd : rest.drop 4 = []
    · right
      rw [hd, show replaceOOO [] = [] from by simp [replaceOOO]]
      rfl
    · have hrd : replaceOOO (rest.drop 4) ≠ [] := replaceOOO_ne_nil _ hd
      have hL : ('O' :: '-' :: 'O' :: '-' :: 'O' :: replaceOOO (rest.drop 4)).getLast? =
          (replaceOOO (rest.drop 4)).getLast? := by
        rw [getLast?_cons_ne _ _ (by simp), getLast?_cons_ne _ _ (by simp),
          getLast?_cons_ne _ _ (by simp), getLast?_cons_ne _ _ (by simp),
          getLast?_cons_ne _ _ hrd]
      have hR : (c :: rest).getLast? = (rest.drop 4).getLast? := by
        rw [getLast?_cons_ne _ _ (by rw [hrest]; simp)]
        conv_lhs => rw [hrest]
        rw [getLast?_cons_ne _ _ (by simp), getLast?_cons_ne _ _ (by simp),
          getLast?_cons_ne _ _ (by simp), getLast?_cons_ne _ _ hd]
      rw [hL, hR]
      exact ih
  | case3 c rest hcond ih =>
    rw [replaceOOO, if_neg hcond]
    by_cases hd : rest = []
    · left; rw [hd, show replaceOOO [] = [] from by simp [replaceOOO]]
    · have hrd : replaceOOO rest ≠ [] := replaceOOO_ne_nil _ hd
      rw [getLast?_cons_ne _ _ hrd, getLast?_cons_ne _ _ hd]
      exact ih

/-- Does the token still contain an occurrence of the zero-based kingside
castling pattern `0-0`? -/
def hasOO : List Char → Bool
  | [] => false
  | c :: rest => (decide (c = '0') && decide (rest.take 2 = ['-', '0'])) || hasOO rest

theorem replaceOO_take2 (l : List Char) (h : (replaceOO l).take 2 = ['-', '0']) :
    l.take 2 = ['-', '0'] := by
  cases l with
  | nil => simp [replaceOO] at h
  | cons a r =>
    by_cases ha : a = '0' ∧ r.take 2 = ['-', '0']
    · rw [replaceOO, if_pos ha] at h
      simp at h
    · rw [replaceOO, if_neg ha] at h
      cases r with
      | nil => rw [replaceOO_nil] at h; simp at h
      | cons b r2 =>
        by_cases hb : b = '0' ∧ r2.take 2 = ['-', '0']
        · rw [replaceOO, if_pos hb] at h
          simp at h
        · rw [replaceOO, if_neg hb] at h
          exact h

theorem hasOO_replaceOO (s : List Char) : hasOO (replaceOO s) = false := by
  induction s using replaceOO.induct with
  | case1 => rw [replaceOO_nil]; rfl
  | case2 c rest hcond ih =>
    rw [replaceOO, if_pos hcond]
    simp only [hasOO, ih]
    simp
  | case3 c rest hcond ih =>
    rw [replaceOO, if_neg hcond]
    simp only [hasOO, ih, Bool.or_false, Bool.and_eq_false_iff]
    by_cases hc0 : c = '0'
    · right
      simp only [decide_eq_false_iff_not]
      intro htake
      exact hcond ⟨hc0, replaceOO_take2 rest htake⟩
    · left
      simp [hc0]

theorem hasOO_false_replaceOO_id (s : List Char) (h : hasOO s = false) : replaceOO s = s := by
  induction s with
  | nil => exact replaceOO_nil
  | cons c rest ih =>
    simp only [hasOO, Bool.or_eq_false_iff, Bool.and_eq_false_iff,
      decide_eq_false_iff_not] at h
    rw [replaceOO, if_neg (by tauto), ih h.2]

theorem hasOO_false_replaceOOO_id (s : List Char) (h : hasOO s = false) : replaceOOO s = s := by
  induction s with
  | nil => exact replaceOOO_nil
  | cons c rest ih =>
    simp only [hasOO, Bool.or_eq_false_iff, Bool.and_eq_false_iff,
      decide_eq_false_iff_not] at h
    have hcond : ¬ (c = '0' ∧ rest.take 4 = ['-', '0', '-', '0']) := by
      rintro ⟨hc0, h4⟩
      have h2 : rest.take 2 = ['-', '0'] := by
        have h22 : (rest.take 4).take 2 = rest.take 2 := by
          rw [List.take_take]
          norm_num
        rw [← h22, h4]
        rfl
      rcases h.1 with hh | hh
      · exact hh hc0
      · exact hh h2
    rw [replaceOOO, if_neg hcond, ih h.2]


/-! ## Claim C9: idempotence of `sanitizeNotation` -/

/-- Claim C9, counterexample: on `"e4+ !"` the first pass strips only the
trailing `!` (the `+` is not at the end yet) and then deletes the space,
yielding `"e4+"`; the second pass strips the now-trailing `+`, yielding `"e4"`.
So normalization is not idempotent on all strings. -/
theorem sanitize_idempotence_counterexample :
    sanitizeNotation ( sanitizeNotation "e4+ !".toList) ≠
      sanitizeNotation "e4+ !".toList := by
  have hA : sanitizeNotation "e4+ !".toList = "e4+".toList := by
    rw [ sanitizeNotation, if_neg (by decide)]
    rw [show stripTrailGlyphs (stripMoveNum (jsTrim "e4+ !".toList)) = "e4+ ".toList from by
      decide]
    rw [hasOO_false_replaceOOO_id _ (by decide), hasOO_false_replaceOO_id _ (by decide)]
    decide
  have hB : sanitizeNotation "e4+".toList = "e4".toList := by
    rw [ sanitizeNotation, if_neg (by decide)]
    rw [show stripTrailGlyphs (stripMoveNum (jsTrim "e4+".toList)) = "e4".toList from by
      decide]
    rw [hasOO_false_replaceOOO_id _ (by decide), hasOO_false_replaceOO_id _ (by decide)]
    decide
  rw [hA, hB]
  decide

/-- Claim C9 (amended): `sanitizeNotation` is idempotent on every token that
contains no whitespace character and does not begin with a decimal digit.
(Whitespace can expose a new trailing annotation glyph, as in `"e4+ !"`, and a
digit-led token can expose a second move-number prefix, as in `"1.2.e4"`.) -/
theorem sanitize_idempotent_of_plain (t : List Char)
    (hws : ∀ c ∈ t, isJsWs c = false)
    (hd : ∀ c, t.head? = some c → isDigitCh c = false) :
    sanitizeNotation ( sanitizeNotation t) = sanitizeNotation t := by
  by_cases ht : t.isEmpty
  · have ht' : t = [] := by cases t with
      | nil => rfl
      | cons a b => simp at ht
    subst ht'
    rfl
  · have htrim : jsTrim t = t := jsTrim_eq_self_of_all t hws
    have hmn : stripMoveNum t = t := stripMoveNum_eq_self_of_head t hd
    have hr_ws : ∀ c ∈ replaceOO (replaceOOO (stripTrailGlyphs t)), isJsWs c = false := by
      intro c hc
      rcases replaceOO_subset _ c hc with h1 | h1 | h1
      · rcases replaceOOO_subset _ c h1 with h2 | h2 | h2
        · exact hws c (stripTrailGlyphs_subset t c h2)
        · subst h2; decide
        · subst h2; decide
      · subst h1; decide
      · subst h1; decide
    have h1 : sanitizeNotation t = replaceOO (replaceOOO (stripTrailGlyphs t)) := by
      rw [ sanitizeNotation, if_neg ht, htrim, hmn]
      exact collapseWs_eq_self_of_all _ hr_ws
    rw [h1]
    by_cases hre : (replaceOO (replaceOOO (stripTrailGlyphs t))).isEmpty
    · have hre' : replaceOO (replaceOOO (stripTrailGlyphs t)) = [] := by
        cases hx : replaceOO (replaceOOO (stripTrailGlyphs t)) with
        | nil => rfl
        | cons a b => rw [hx] at hre; simp at hre
      rw [hre']
      rfl
    · have hrt : jsTrim (replaceOO (replaceOOO (stripTrailGlyphs t))) =
          replaceOO (replaceOOO (stripTrailGlyphs t)) :=
        jsTrim_eq_self_of_all _ hr_ws
      have hrhead : ∀ c, (replaceOO (replaceOOO (stripTrailGlyphs t))).head? = some c →
          isDigitCh c = false := by
        intro c hc
        rcases replaceOO_head_inv _ c hc with h2 | h2
        · rcases replaceOOO_head_inv _ c h2 with h3 | h3
          · exact hd c (stripTrailGlyphs_head t c h3)
          · subst h3; decide
        · subst h2; decide
      have hrmn : stripMoveNum (replaceOO (replaceOOO (stripTrailGlyphs t))) =
          replaceOO (replaceOOO (stripTrailGlyphs t)) :=
        stripMoveNum_eq_self_of_head _ hrhead
      have hrlast : ∀ c, (replaceOO (replaceOOO (stripTrailGlyphs t))).getLast? = some c →
          isGlyph c = false := by
        intro c hc
        rcases replaceOO_getLast (replaceOOO (stripTrailGlyphs t)) with h2 | h2
        · rw [h2] at hc
          rcases replaceOOO_getLast (stripTrailGlyphs t) with h3 | h3
          · rw [h3] at hc
            exact stripTrailGlyphs_getLast t c hc
          · rw [h3] at hc
            cases hc
            decide
        · rw [h2] at hc
          cases hc
          decide
      have hrst : stripTrailGlyphs (replaceOO (replaceOOO (stripTrailGlyphs t))) =
          replaceOO (replaceOOO (stripTrailGlyphs t)) :=
        stripTrailGlyphs_eq_self _ hrlast
      have hOO : hasOO (replaceOO (replaceOOO (stripTrailGlyphs t))) = false :=
        hasOO_replaceOO _
      rw [ sanitizeNotation, if_neg hre, hrt, hrmn, hrst,
        hasOO_false_replaceOOO_id _ hOO, hasOO_false_replaceOO_id _ hOO]
      exact collapseWs_eq_self_of_all _ hr_ws

/-- Witness for `sanitize_idempotent_of_plain` at the token `"Nf3"`. -/
theorem sanitize_idempotent_of_plain_witness :
    sanitizeNotation ( sanitizeNotation "Nf3".toList) = sanitizeNotation "Nf3".toList :=
  sanitize_idempotent_of_plain "Nf3".toList (by decide) (by decide)


/-! ## Move history timeline (`moveHistory.ts`)

The external chess.js rules engine is the spec's "Move Legality Oracle": an
abstract capability with an opaque position type `P`, an opaque resolved-move
type `M` (the chess.js `Move` object: origin, destination, promotion and
metadata; the timeline never inspects its fields, it only stores entries and
hands `{from, to, promotion}` back to the engine), and an opaque algebraic
token type `S`. `applyMove pos m = none` models a `chess.move(...)` call that
throws (illegal/rejected move); `some p` is the resulting position. -/

structure Oracle (P M S : Type) where
  applyMove : P → M → Option P
  applySan : P → S → Option (P × M)
  isCheck : P → Bool
  isCheckmate : P → Bool
  isStalemate : P → Bool
  isDraw : P → Bool
  isGameOver : P → Bool

/-- One `MoveHistoryEntry`: the resolved move, the position text recorded after
the move (`fen`), and the check/mate/stalemate flags. The purely decorative
string fields (`san`, `lan`, `uci`, `capturedPiece`) and the timestamp are
functions of `M` and the clock that the timeline never branches on. -/
structure MEntry (P M : Type) where
  move : M
  fen : P
  isCheck : Bool
  isCheckmate : Bool
  isStalemate : Bool
  deriving Repr, DecidableEq

/-- The mutable state of a `MoveHistory` object: the entry list, the cursor
(`currentIndex`, `-1` = before any move), the starting position, the live
chess.js instance's position (`chess`), and `maxHistoryLength`. -/
structure MoveHistoryState (P M : Type) where
  moves : List (MEntry P M)
  currentIndex : Int
  startingPosition : P
  chess : P
  maxHistoryLength : Nat
  deriving Repr, DecidableEq

/-- The `MoveHistory` constructor: empty history, cursor `-1`,
`startingPosition || chess.fen()`. -/
def mkMoveHistory {P M : Type} (chess : P) (startingPosition : Option P)
    (maxHistoryLength : Nat) : MoveHistoryState P M :=
  { moves := [], currentIndex := -1,
    startingPosition := startingPosition.getD chess,
    chess := chess, maxHistoryLength := maxHistoryLength }

/-- JS `Array.prototype.slice(0, e)`: a negative end counts from the end. -/
def jsSliceTo {α : Type} (l : List α) (e : Int) : List α :=
  if e < 0 then l.take (l.length - e.natAbs) else l.take e.toNat

def getLength {P M : Type} (s : MoveHistoryState P M) : Nat := s.moves.length

def getCurrentIndex {P M : Type} (s : MoveHistoryState P M) : Int := s.currentIndex

def canUndo {P M : Type} (s : MoveHistoryState P M) : Bool :=
  decide (s.currentIndex ≥ 0)

def canRedo {P M : Type} (s : MoveHistoryState P M) : Bool :=
  decide (s.currentIndex < (s.moves.length : Int) - 1)

/-- The replay loop of `restorePosition`: apply each stored move in order; a
rejected replay step logs an error and `break`s, leaving the position at the
last successfully replayed prefix. -/
def replayMoves {P M S : Type} (O : Oracle P M S) : P → List (MEntry P M) → P
  | pos, [] => pos
  | pos, e :: es =>
    match O.applyMove pos e.move with
    | some p2 => replayMoves O p2 es
    | none => pos

/-- `restorePosition`: reload the starting position and replay the entries up
to and including the cursor (out-of-range loop iterations are skipped). -/
def restorePosition {P M S : Type} (O : Oracle P M S) (s : MoveHistoryState P M) :
    MoveHistoryState P M :=
  { s with chess := replayMoves O s.startingPosition (s.moves.take (s.currentIndex + 1).toNat) }

/-- `addMove`: truncate redo-available entries when the cursor is not at the
tail, append the new entry, advance the cursor, then evict from the front when
`maxHistoryLength` is exceeded. Returns the new state and the created entry. -/
def addMove {P M S : Type} (O : Oracle P M S) (s : MoveHistoryState P M) (m : M) :
    MoveHistoryState P M × MEntry P M :=
  let moveEntry : MEntry P M :=
    { move := m, fen := s.chess, isCheck := O.isCheck s.chess,
      isCheckmate := O.isCheckmate s.chess, isStalemate := O.isStalemate s.chess }
  let moves1 :=
    if s.currentIndex < (s.moves.length : Int) - 1 then jsSliceTo s.moves (s.currentIndex + 1)
    else s.moves
  let moves2 := moves1 ++ [moveEntry]
  let idx2 := s.currentIndex + 1
  if (moves2.length : Int) > (s.maxHistoryLength : Int) then
    let removeCount : Int := (moves2.length : Int) - (s.maxHistoryLength : Int)
    ({ s with moves := moves2.drop removeCount.toNat, currentIndex := idx2 - removeCount },
      moveEntry)
  else
    ({ s with moves := moves2, currentIndex := idx2 }, moveEntry)

/-- `undo`: soft-fail when the cursor is at `-1`; otherwise decrement the
cursor and rebuild the live position by replay. -/
def undo {P M S : Type} (O : Oracle P M S) (s : MoveHistoryState P M) :
    MoveHistoryState P M × Bool :=
  if canUndo s then (restorePosition O { s with currentIndex := s.currentIndex - 1 }, true)
  else (s, false)

/-- `redo`: soft-fail when the cursor is at the tail; otherwise apply the next
entry's move, rolling the cursor back if the engine rejects it. -/
def redo {P M S : Type} (O : Oracle P M S) (s : MoveHistoryState P M) :
    MoveHistoryState P M × Bool :=
  if canRedo s then
    match s.moves[(s.currentIndex + 1).toNat]? with
    | some e =>
      match O.applyMove s.chess e.move with
      | some p2 => ({ s with currentIndex := s.currentIndex + 1, chess := p2 }, true)
      | none => (s, false)
    | none => (s, false)
  else (s, false)

theorem redo_of_not_canRedo {P M S : Type} (O : Oracle P M S) (s : MoveHistoryState P M)
    (h : canRedo s = false) : redo O s = (s, false) := by
  unfold redo
  rw [if_neg (by simp [h])]

/-- `goToMove`: soft-fail for an index outside `[-1, length-1]`; otherwise set
the cursor and replay. -/
def goToMove {P M S : Type} (O : Oracle P M S) (s : MoveHistoryState P M) (index : Int) :
    MoveHistoryState P M × Bool :=
  if index < -1 ∨ index ≥ (s.moves.length : Int) then (s, false)
  else (restorePosition O { s with currentIndex := index }, true)

def goToBeginning {P M S : Type} (O : Oracle P M S) (s : MoveHistoryState P M) :
    MoveHistoryState P M :=
  restorePosition O { s with currentIndex := -1 }

def goToEnd {P M S : Type} (O : Oracle P M S) (s : MoveHistoryState P M) :
    MoveHistoryState P M :=
  restorePosition O { s with currentIndex := (s.moves.length : Int) - 1 }

def clearHistory {P M S : Type} (O : Oracle P M S) (s : MoveHistoryState P M) :
    MoveHistoryState P M :=
  restorePosition O { s with moves := [], currentIndex := -1 }

/-- The token-application loop of `loadFromPGN`: apply each recognized token to
a scratch position; the first rejected token aborts with `none`. -/
def loadTokens {P M S : Type} (O : Oracle P M S) : P → List S → Option (List (MEntry P M))
  | _, [] => some []
  | pos, san :: rest =>
    match O.applySan pos san with
    | none => none
    | some (p2, m) =>
      let entry : MEntry P M :=
        { move := m, fen := p2, isCheck := O.isCheck p2,
          isCheckmate := O.isCheckmate p2, isStalemate := O.isStalemate p2 }
      (loadTokens O p2 rest).map (entry :: ·)

/-- `loadFromPGN` over the recognized move tokens of the transcript: the stored
history is replaced (and the live position rebuilt) only when every token
applies; any rejection returns `false` with the state untouched. -/
def loadFromPGN {P M S : Type} (O : Oracle P M S) (s : MoveHistoryState P M)
    (tokens : List S) (startingFen : Option P) : MoveHistoryState P M × Bool :=
  match loadTokens O (startingFen.getD s.startingPosition) tokens with
  | none => (s, false)
  | some entries =>
    (restorePosition O
      { s with moves := entries, currentIndex := (entries.length : Int) - 1 }, true)


/-- A small concrete oracle over `P = M = S = Nat` used to witness the timeline
theorems: positions are running sums, the move/token `99` is always rejected,
and positions from 1000 on are game over (checkmate). -/
def natOracle : Oracle Nat Nat Nat where
  applyMove := fun p m => if m = 99 then none else some (p + m)
  applySan := fun p t => if t = 99 then none else some (p + t, t)
  isCheck := fun _ => false
  isCheckmate := fun p => decide (p ≥ 1000)
  isStalemate := fun _ => false
  isDraw := fun _ => false
  isGameOver := fun p => decide (p ≥ 1000)

/-- Convenience constructor for concrete witness entries. -/
def entE (m fenv : Nat) : MEntry Nat Nat :=
  { move := m, fen := fenv, isCheck := false, isCheckmate := false, isStalemate := false }

/-- A concrete one-entry history used by the transcript-loading witness. -/
def stateA : MoveHistoryState Nat Nat :=
  { moves := [entE 1 1], currentIndex := 0, startingPosition := 0, chess := 1,
    maxHistoryLength := 1000 }

/-- A concrete three-entry history with the cursor at the tail. -/
def stateC : MoveHistoryState Nat Nat :=
  { moves := [entE 1 1, entE 2 3, entE 3 6], currentIndex := 2, startingPosition := 0,
    chess := 6, maxHistoryLength := 1000 }

/-- A concrete saturated history (`maxHistoryLength = 2`, both slots full). -/
def stateD : MoveHistoryState Nat Nat :=
  { moves := [entE 1 1, entE 2 3], currentIndex := 1, startingPosition := 0, chess := 3,
    maxHistoryLength := 2 }

/-- A concrete two-entry history whose first entry is rejected on replay. -/
def stateB : MoveHistoryState Nat Nat :=
  { moves := [entE 99 0, entE 1 1], currentIndex := 1, startingPosition := 0, chess := 5,
    maxHistoryLength := 1000 }

/-! ## Claim C4: all-or-nothing transcript loading -/

/-- Claim C4: if any recognized move token is rejected while being applied in
sequence, `loadFromPGN` returns `false` and leaves the stored move list, the
cursor and the live position untouched; the stored history is replaced only
when every token applies. -/
theorem loadFromPGN_all_or_nothing {P M S : Type} (O : Oracle P M S)
    (s : MoveHistoryState P M) (tokens : List S) (startingFen : Option P)
    (hrej : loadTokens O (startingFen.getD s.startingPosition) tokens = none) :
    loadFromPGN O s tokens startingFen = (s, false) := by
  unfold loadFromPGN
  rw [hrej]

/-- Witness for `loadFromPGN_all_or_nothing`: the token `99` is rejected, the
previous one-entry history survives unchanged. -/
theorem loadFromPGN_all_or_nothing_witness :
    loadFromPGN natOracle stateA [2, 99, 3] none = (stateA, false) :=
  loadFromPGN_all_or_nothing natOracle _ _ _ (by decide)

/-! ## Claim C7: replay rejection during position restoration -/

/-- Claim C7, counterexample: the stored entry `99` is rejected by the rules
engine when replayed from the starting position, yet `undo()` still reports
success (`true`) — `restorePosition` logs the failure and `break`s instead of
surfacing it, so the claim that the operation must not report success is false. -/
theorem replay_desync_counterexample :
    natOracle.applyMove 0 99 = none ∧ (undo natOracle stateB).2 = true := by
  constructor
  · decide
  · decide

/-- Claim C7 (amended): a replay step rejected during `undo`'s position
restoration is swallowed, not surfaced: `undo` always reports success whenever
the cursor allows it, and the live position is rebuilt by the replay loop,
which stops silently at the first rejected entry. -/
theorem undo_swallows_replay_rejection {P M S : Type} (O : Oracle P M S)
    (s : MoveHistoryState P M) (h : canUndo s = true) :
    (undo O s).2 = true ∧
    (undo O s).1.chess =
      replayMoves O s.startingPosition (s.moves.take (s.currentIndex - 1 + 1).toNat) := by
  unfold undo restorePosition
  rw [if_pos h]
  exact ⟨rfl, rfl⟩

/-- Witness for `undo_swallows_replay_rejection` at a state whose first stored
entry is rejected on replay. -/
theorem undo_swallows_replay_rejection_witness :
    (undo natOracle stateB).2 = true ∧
    (undo natOracle stateB).1.chess =
      replayMoves natOracle stateB.startingPosition
        (stateB.moves.take (stateB.currentIndex - 1 + 1).toNat) :=
  undo_swallows_replay_rejection natOracle stateB (by decide)


/-! ## The shape of `addMove` (used by claims C2 and C5) -/

/-- The entry that `addMove` constructs from the applied move and the live
position. -/
def mkEntry {P M S : Type} (O : Oracle P M S) (s : MoveHistoryState P M) (m : M) :
    MEntry P M :=
  { move := m, fen := s.chess, isCheck := O.isCheck s.chess,
    isCheckmate := O.isCheckmate s.chess, isStalemate := O.isStalemate s.chess }

/-- Both branches of `addMove` in one closed form: the retained entries are the
first `currentIndex + 1` old entries plus the new one, minus
`(currentIndex + 2) - maxHistoryLength` entries evicted from the front
(clamped at 0), and the cursor is advanced then decreased by the eviction
count. -/
theorem addMove_eq {P M S : Type} (O : Oracle P M S) (s : MoveHistoryState P M) (m : M)
    (hlo : -1 ≤ s.currentIndex) (hhi : s.currentIndex < (s.moves.length : Int)) :
    addMove O s m =
      ({ moves := (s.moves.take (s.currentIndex + 1).toNat ++ [mkEntry O s m]).drop
            ((s.currentIndex + 2 - (s.maxHistoryLength : Int)).toNat),
         currentIndex := s.currentIndex + 1 -
            (((s.currentIndex + 2 - (s.maxHistoryLength : Int)).toNat : Nat) : Int),
         startingPosition := s.startingPosition, chess := s.chess,
         maxHistoryLength := s.maxHistoryLength }, mkEntry O s m) := by
  simp only [addMove, mkEntry]
  by_cases hc : s.currentIndex < (s.moves.length : Int) - 1
  · rw [if_pos hc]
    rw [show jsSliceTo s.moves (s.currentIndex + 1) =
        s.moves.take (s.currentIndex + 1).toNat from by
      unfold jsSliceTo
      rw [if_neg (by omega)]]
    have hL : ((s.moves.take (s.currentIndex + 1).toNat ++
        [({ move := m, fen := s.chess, isCheck := O.isCheck s.chess,
            isCheckmate := O.isCheckmate s.chess,
            isStalemate := O.isStalemate s.chess } : MEntry P M)]).length : Int) =
        s.currentIndex + 2 := by
      rw [List.length_append, List.length_take]
      simp
      omega
    by_cases he : s.currentIndex + 2 > (s.maxHistoryLength : Int)
    · rw [if_pos (by rw [hL]; exact he)]
      rw [hL]
      rw [show (((s.currentIndex + 2 - (s.maxHistoryLength : Int)).toNat : Nat) : Int) =
          s.currentIndex + 2 - (s.maxHistoryLength : Int) from by omega]
    · rw [if_neg (by rw [hL]; exact he)]
      have h0 : ((s.currentIndex + 2 - (s.maxHistoryLength : Int)).toNat) = 0 := by omega
      rw [h0, List.drop_zero]
      norm_num
  · have hcur : s.currentIndex = (s.moves.length : Int) - 1 := by omega
    rw [if_neg hc]
    have hsm : s.moves.take (s.currentIndex + 1).toNat = s.moves := by
      rw [show (s.currentIndex + 1).toNat = s.moves.length from by omega, List.take_length]
    rw [hsm]
    have hL : ((s.moves ++
        [({ move := m, fen := s.chess, isCheck := O.isCheck s.chess,
            isCheckmate := O.isCheckmate s.chess,
            isStalemate := O.isStalemate s.chess } : MEntry P M)]).length : Int) =
        s.currentIndex + 2 := by
      rw [List.length_append]
      simp
      omega
    by_cases he : s.currentIndex + 2 > (s.maxHistoryLength : Int)
    · rw [if_pos (by rw [hL]; exact he)]
      rw [hL]
      rw [show (((s.currentIndex + 2 - (s.maxHistoryLength : Int)).toNat : Nat) : Int) =
          s.currentIndex + 2 - (s.maxHistoryLength : Int) from by omega]
    · rw [if_neg (by rw [hL]; exact he)]
      have h0 : ((s.currentIndex + 2 - (s.maxHistoryLength : Int)).toNat) = 0 := by omega
      rw [h0, List.drop_zero]
      norm_num

/-! ## Claim C5: eviction keeps the cursor at the most recent entry -/

/-- Claim C5: after `addMove` on a history with `maxHistoryLength ≥ 1` (and the
cursor inside `[-1, length-1]`, as every reachable history satisfies),
`getLength` never exceeds `maxHistoryLength`, the cursor points at the most
recently recorded entry, and on overflow exactly the oldest entries are
dropped from the front (so the cursor is decreased by the eviction count). -/
theorem addMove_eviction_invariant {P M S : Type} (O : Oracle P M S)
    (s : MoveHistoryState P M) (m : M)
    (hm1 : 1 ≤ s.maxHistoryLength)
    (hlo : -1 ≤ s.currentIndex)
    (hhi : s.currentIndex < (s.moves.length : Int)) :
    getLength (addMove O s m).1 ≤ s.maxHistoryLength ∧
    (addMove O s m).1.currentIndex = (getLength (addMove O s m).1 : Int) - 1 ∧
    (addMove O s m).2.move = m ∧
    (addMove O s m).1.moves =
      (s.moves.take (s.currentIndex + 1).toNat ++ [(addMove O s m).2]).drop
        ((s.currentIndex + 2 - (s.maxHistoryLength : Int)).toNat) := by
  rw [addMove_eq O s m hlo hhi]
  have hlen : ((s.moves.take (s.currentIndex + 1).toNat ++ [mkEntry O s m]).length : Int) =
      s.currentIndex + 2 := by
    rw [List.length_append, List.length_take]
    simp
    omega
  have hdroplen : (((s.moves.take (s.currentIndex + 1).toNat ++ [mkEntry O s m]).drop
      ((s.currentIndex + 2 - (s.maxHistoryLength : Int)).toNat)).length : Int) =
      s.currentIndex + 2 -
        (((s.currentIndex + 2 - (s.maxHistoryLength : Int)).toNat : Nat) : Int) := by
    rw [List.length_drop]
    omega
  refine ⟨?_, ?_, rfl, rfl⟩
  · unfold getLength
    simp only
    omega
  · unfold getLength
    simp only
    omega

/-! ## Claim C2: destructive branch cut -/

/-- Iterated `undo` (`k` successive calls, keeping the state). -/
def undoTimes {P M S : Type} (O : Oracle P M S) (s : MoveHistoryState P M) :
    Nat → MoveHistoryState P M
  | 0 => s
  | k + 1 => undoTimes O (undo O s).1 k

theorem undo_state_fields {P M S : Type} (O : Oracle P M S) (s : MoveHistoryState P M) :
    (undo O s).1.moves = s.moves ∧
    (undo O s).1.startingPosition = s.startingPosition ∧
    (undo O s).1.maxHistoryLength = s.maxHistoryLength ∧
    (undo O s).1.currentIndex =
      (if canUndo s = true then s.currentIndex - 1 else s.currentIndex) := by
  unfold undo restorePosition
  by_cases h : canUndo s = true
  · rw [if_pos h, if_pos h]
    exact ⟨rfl, rfl, rfl, rfl⟩
  · rw [if_neg h, if_neg h]
    exact ⟨rfl, rfl, rfl, rfl⟩

theorem undoTimes_spec {P M S : Type} (O : Oracle P M S) (s : MoveHistoryState P M)
    (k : Nat) (h : (k : Int) ≤ s.currentIndex + 1) :
    (undoTimes O s k).moves = s.moves ∧
    (undoTimes O s k).startingPosition = s.startingPosition ∧
    (undoTimes O s k).maxHistoryLength = s.maxHistoryLength ∧
    (undoTimes O s k).currentIndex = s.currentIndex - k := by
  induction k generalizing s with
  | zero =>
    refine ⟨rfl, rfl, rfl, ?_⟩
    show s.currentIndex = s.currentIndex - ((0 : Nat) : Int)
    simp
  | succ n ih =>
    have hcu : canUndo s = true := by
      unfold canUndo
      simp only [decide_eq_true_eq]
      push_cast at h
      omega
    obtain ⟨h1, h2, h3, h4⟩ := undo_state_fields O s
    rw [if_pos hcu] at h4
    have hrec := ih ((undo O s).1) (by rw [h4]; push_cast at h ⊢; omega)
    rw [h1, h2, h3, h4] at hrec
    simp only [undoTimes]
    refine ⟨hrec.1, hrec.2.1, hrec.2.2.1, ?_⟩
    rw [hrec.2.2.2]
    push_cast
    ring

/-- Claim C2: with the cursor at the last of `N` retained entries (`N` not
exceeding `maxHistoryLength`), undoing `k` times (`0 < k ≤ N`) and recording a
new move leaves `(N-k)+1` entries — the first `N-k` old ones plus the new move
as the last entry; the `k` discarded entries are gone, and `redo()` immediately
afterwards fails, changing nothing. -/
theorem timeline_branch_cut {P M S : Type} (O : Oracle P M S) (s : MoveHistoryState P M)
    (N k : Nat) (m : M)
    (hN : s.moves.length = N)
    (hcur : s.currentIndex = (N : Int) - 1)
    (hmax : N ≤ s.maxHistoryLength)
    (hk0 : 0 < k) (hkN : k ≤ N) :
    getLength (addMove O (undoTimes O s k) m).1 = (N - k) + 1 ∧
    (addMove O (undoTimes O s k) m).1.moves =
      s.moves.take (N - k) ++ [(addMove O (undoTimes O s k) m).2] ∧
    (addMove O (undoTimes O s k) m).2.move = m ∧
    redo O (addMove O (undoTimes O s k) m).1 =
      ((addMove O (undoTimes O s k) m).1, false) := by
  obtain ⟨hu1, hu2, hu3, hu4⟩ := undoTimes_spec O s k (by rw [hcur]; omega)
  have hulo : -1 ≤ (undoTimes O s k).currentIndex := by
    rw [hu4, hcur]
    omega
  have huhi : (undoTimes O s k).currentIndex < ((undoTimes O s k).moves.length : Int) := by
    rw [hu4, hu1, hN, hcur]
    omega
  rw [addMove_eq O (undoTimes O s k) m hulo huhi]
  have hidx : ((undoTimes O s k).currentIndex + 1).toNat = N - k := by
    rw [hu4, hcur]
    omega
  have hnoev : (((undoTimes O s k).currentIndex + 2 -
      ((undoTimes O s k).maxHistoryLength : Int)).toNat) = 0 := by
    rw [hu4, hu3, hcur]
    omega
  rw [hidx, hnoev, hu1, List.drop_zero, Nat.cast_zero, sub_zero]
  have htklen : (s.moves.take (N - k)).length = N - k := by
    rw [List.length_take]
    omega
  refine ⟨?_, rfl, rfl, ?_⟩
  · unfold getLength
    simp only [List.length_append, htklen, List.length_cons, List.length_nil]
  · apply redo_of_not_canRedo
    simp only [canRedo, decide_eq_false_iff_not, not_lt]
    rw [hu4, hcur]
    simp only [List.length_append, htklen, List.length_cons, List.length_nil]
    push_cast
    omega


/-- Witness for `timeline_branch_cut`: three recorded moves, one undo, one new
move recorded. -/
theorem timeline_branch_cut_witness :
    getLength (addMove natOracle (undoTimes natOracle stateC 1) 7).1 = (3 - 1) + 1 ∧
    (addMove natOracle (undoTimes natOracle stateC 1) 7).1.moves =
      stateC.moves.take (3 - 1) ++ [(addMove natOracle (undoTimes natOracle stateC 1) 7).2] ∧
    (addMove natOracle (undoTimes natOracle stateC 1) 7).2.move = 7 ∧
    redo natOracle (addMove natOracle (undoTimes natOracle stateC 1) 7).1 =
      ((addMove natOracle (undoTimes natOracle stateC 1) 7).1, false) :=
  timeline_branch_cut natOracle stateC 3 1 7 (by decide) (by decide) (by decide)
    (by decide) (by decide)

/-- Witness for `addMove_eviction_invariant`: recording into a saturated
two-slot history evicts the oldest entry and keeps the cursor at the tail. -/
theorem addMove_eviction_invariant_witness :
    getLength (addMove natOracle stateD 4).1 ≤ stateD.maxHistoryLength ∧
    (addMove natOracle stateD 4).1.currentIndex =
      (getLength (addMove natOracle stateD 4).1 : Int) - 1 ∧
    (addMove natOracle stateD 4).2.move = 4 ∧
    (addMove natOracle stateD 4).1.moves =
      (stateD.moves.take (stateD.currentIndex + 1).toNat ++ [(addMove natOracle stateD 4).2]).drop
        ((stateD.currentIndex + 2 - (stateD.maxHistoryLength : Int)).toNat) :=
  addMove_eviction_invariant natOracle stateD 4 (by decide) (by decide) (by decide)


/-! ## Claim C10: cursor-range invariant over operation sequences -/

/-- One public mutating operation on a `MoveHistory`. -/
inductive HOp (M : Type) where
  | record (m : M)
  | stepBack
  | stepForward
  | seek (i : Int)
  | toBeginning
  | toEnd
  | wipe

/-- Apply one operation (discarding the returned entry/boolean, which the state
does not depend on). -/
def applyOp {P M S : Type} (O : Oracle P M S) (s : MoveHistoryState P M) :
    HOp M → MoveHistoryState P M
  | .record m => (addMove O s m).1
  | .stepBack => (undo O s).1
  | .stepForward => (redo O s).1
  | .seek i => (goToMove O s i).1
  | .toBeginning => goToBeginning O s
  | .toEnd => goToEnd O s
  | .wipe => clearHistory O s

/-- Apply a sequence of operations left to right. -/
def applyOps {P M S : Type} (O : Oracle P M S) (s : MoveHistoryState P M)
    (ops : List (HOp M)) : MoveHistoryState P M :=
  ops.foldl (applyOp O) s

/-- The cursor invariant: `-1 ≤ currentIndex ≤ length - 1` (which forces
`currentIndex = -1` on an empty history). -/
def cursorInv {P M : Type} (s : MoveHistoryState P M) : Prop :=
  -1 ≤ s.currentIndex ∧ s.currentIndex ≤ (s.moves.length : Int) - 1

theorem applyOp_cursorInv {P M S : Type} (O : Oracle P M S) (s : MoveHistoryState P M)
    (op : HOp M) (h : cursorInv s) : cursorInv (applyOp O s op) := by
  obtain ⟨hlo, hhi⟩ := h
  cases op with
  | record m =>
    show cursorInv (addMove O s m).1
    rw [addMove_eq O s m hlo (by omega)]
    have htk : (s.moves.take (s.currentIndex + 1).toNat).length = (s.currentIndex + 1).toNat := by
      rw [List.length_take]
      omega
    have hlen : ((s.moves.take (s.currentIndex + 1).toNat ++ [mkEntry O s m]).drop
        ((s.currentIndex + 2 - (s.maxHistoryLength : Int)).toNat)).length =
        (s.currentIndex + 1).toNat + 1 -
          (s.currentIndex + 2 - (s.maxHistoryLength : Int)).toNat := by
      rw [List.length_drop, List.length_append, htk]
      rfl
    refine ⟨?_, ?_⟩
    · show (-1 : Int) ≤ s.currentIndex + 1 -
        (((s.currentIndex + 2 - (s.maxHistoryLength : Int)).toNat : Nat) : Int)
      omega
    · show s.currentIndex + 1 -
          (((s.currentIndex + 2 - (s.maxHistoryLength : Int)).toNat : Nat) : Int) ≤
        (((s.moves.take (s.currentIndex + 1).toNat ++ [mkEntry O s m]).drop
          ((s.currentIndex + 2 - (s.maxHistoryLength : Int)).toNat)).length : Int) - 1
      rw [hlen]
      omega
  | stepBack =>
    show cursorInv (undo O s).1
    obtain ⟨h1, _h2, _h3, h4⟩ := undo_state_fields O s
    unfold cursorInv
    rw [h1, h4]
    by_cases hcu : canUndo s = true
    · rw [if_pos hcu]
      unfold canUndo at hcu
      simp only [decide_eq_true_eq] at hcu
      omega
    · rw [if_neg hcu]
      omega
  | stepForward =>
    show cursorInv (redo O s).1
    unfold redo
    by_cases hcr : canRedo s = true
    · rw [if_pos hcr]
      unfold canRedo at hcr
      simp only [decide_eq_true_eq] at hcr
      split
      · split
        · refine ⟨?_, ?_⟩
          · show (-1 : Int) ≤ s.currentIndex + 1
            omega
          · show s.currentIndex + 1 ≤ (s.moves.length : Int) - 1
            omega
        · exact ⟨hlo, hhi⟩
      · exact ⟨hlo, hhi⟩
    · rw [if_neg hcr]
      exact ⟨hlo, hhi⟩
  | seek i =>
    show cursorInv (goToMove O s i).1
    unfold goToMove
    by_cases hb : i < -1 ∨ i ≥ (s.moves.length : Int)
    · rw [if_pos hb]
      exact ⟨hlo, hhi⟩
    · rw [if_neg hb]
      push_neg at hb
      refine ⟨?_, ?_⟩
      · show (-1 : Int) ≤ i
        omega
      · show i ≤ (s.moves.length : Int) - 1
        omega
  | toBeginning =>
    refine ⟨?_, ?_⟩
    · show (-1 : Int) ≤ -1
      omega
    · show (-1 : Int) ≤ (s.moves.length : Int) - 1
      omega
  | toEnd =>
    refine ⟨?_, ?_⟩
    · show (-1 : Int) ≤ (s.moves.length : Int) - 1
      omega
    · show (s.moves.length : Int) - 1 ≤ (s.moves.length : Int) - 1
      omega
  | wipe =>
    refine ⟨?_, ?_⟩
    · show (-1 : Int) ≤ -1
      omega
    · show (-1 : Int) ≤ ((([] : List (MEntry P M)).length : Int)) - 1
      simp

theorem applyOps_cursorInv {P M S : Type} (O : Oracle P M S) (s : MoveHistoryState P M)
    (ops : List (HOp M)) (h : cursorInv s) : cursorInv (applyOps O s ops) := by
  induction ops generalizing s with
  | nil => exact h
  | cons op rest ih => exact ih _ (applyOp_cursorInv O s op h)

/-- Claim C10: starting from a freshly constructed `MoveHistory`, after any
sequence of `addMove`/`undo`/`redo`/`goToMove`/`goToBeginning`/`goToEnd`/
`clearHistory` calls the cursor stays inside `[-1, length-1]` (hence `-1` when
the history is empty), `canUndo` holds exactly when the cursor is `≥ 0`, and
`canRedo` exactly when the cursor is strictly below `length - 1`. -/
theorem cursor_range_invariant {P M S : Type} (O : Oracle P M S) (chess : P)
    (startingPosition : Option P) (maxHistoryLength : Nat) (ops : List (HOp M)) :
    (-1 ≤ getCurrentIndex (applyOps O (mkMoveHistory chess startingPosition maxHistoryLength) ops) ∧
      getCurrentIndex (applyOps O (mkMoveHistory chess startingPosition maxHistoryLength) ops) ≤
        (getLength (applyOps O (mkMoveHistory chess startingPosition maxHistoryLength) ops) : Int)
          - 1) ∧
    (canUndo (applyOps O (mkMoveHistory chess startingPosition maxHistoryLength) ops) = true ↔
      0 ≤ getCurrentIndex (applyOps O (mkMoveHistory chess startingPosition maxHistoryLength) ops)) ∧
    (canRedo (applyOps O (mkMoveHistory chess startingPosition maxHistoryLength) ops) = true ↔
      getCurrentIndex (applyOps O (mkMoveHistory chess startingPosition maxHistoryLength) ops) <
        (getLength (applyOps O (mkMoveHistory chess startingPosition maxHistoryLength) ops) : Int)
          - 1) := by
  have hinv : cursorInv (applyOps O (mkMoveHistory chess startingPosition maxHistoryLength) ops) :=
    applyOps_cursorInv O _ ops
      ⟨by show (-1 : Int) ≤ -1; omega, by show (-1 : Int) ≤ (([] : List (MEntry P M)).length : Int) - 1; simp⟩
  refine ⟨hinv, ?_, ?_⟩
  · unfold canUndo getCurrentIndex
    simp only [decide_eq_true_eq]
  · unfold canRedo getCurrentIndex getLength
    simp only [decide_eq_true_eq]


/-! ## Claim C3: SAN disambiguation (`algebraicNotation.ts`) -/

/-- A verbose legal move as returned by the rules engine: moved piece letter
(lower case from chess.js), origin square and destination square, each a
(file, rank) character pair (`from[0]`/`from[1]` in the source). -/
structure VMove where
  piece : Char
  fromSq : Char × Char
  toSq : Char × Char
  deriving Repr, DecidableEq

/-- `getDisambiguation` from `algebraicNotation.ts`: pawns need none; collect
the other same-type legal moves to the same destination from other origins;
prefer the file letter, then the rank digit, then the full origin square. -/
def getDisambiguation (legal : List VMove) (move : VMove) : List Char :=
  if move.piece.toUpper = 'P' then []
  else
    let samePieceMoves := legal.filter (fun mv =>
      decide (mv.piece.toUpper = move.piece.toUpper) && decide (mv.toSq = move.toSq) &&
        decide (mv.fromSq ≠ move.fromSq))
    if samePieceMoves.length = 0 then []
    else if (samePieceMoves.any fun mv => decide (mv.fromSq.1 = move.fromSq.1)) = false then
      [move.fromSq.1]
    else if (samePieceMoves.any fun mv => decide (mv.fromSq.2 = move.fromSq.2)) = false then
      [move.fromSq.2]
    else [move.fromSq.1, move.fromSq.2]

/-- A competing move: same piece type, same destination, different origin. -/
def isCompetitor (move mv : VMove) : Prop :=
  mv.piece.toUpper = move.piece.toUpper ∧ mv.toSq = move.toSq ∧ mv.fromSq ≠ move.fromSq

instance (move mv : VMove) : Decidable (isCompetitor move mv) := by
  unfold isCompetitor
  infer_instance

/-- Claim C3: `getDisambiguation` returns the empty string for a pawn or when
no competitor exists; otherwise the origin's file letter when no competitor
shares the origin file, else the origin's rank digit when no competitor shares
the origin rank (so two same-file competitors force rank disambiguation), else
the full origin square. -/
theorem getDisambiguation_spec (legal : List VMove) (move : VMove) :
    getDisambiguation legal move =
      if move.piece.toUpper = 'P' then []
      else if ∀ mv ∈ legal, ¬ isCompetitor move mv then []
      else if ∀ mv ∈ legal, isCompetitor move mv → mv.fromSq.1 ≠ move.fromSq.1 then
        [move.fromSq.1]
      else if ∀ mv ∈ legal, isCompetitor move mv → mv.fromSq.2 ≠ move.fromSq.2 then
        [move.fromSq.2]
      else [move.fromSq.1, move.fromSq.2] := by
  unfold getDisambiguation
  by_cases hp : move.piece.toUpper = 'P'
  · rw [if_pos hp, if_pos hp]
  · rw [if_neg hp, if_neg hp]
    have hmem : ∀ mv, mv ∈ legal.filter (fun mv =>
        decide (mv.piece.toUpper = move.piece.toUpper) && decide (mv.toSq = move.toSq) &&
          decide (mv.fromSq ≠ move.fromSq)) ↔ (mv ∈ legal ∧ isCompetitor move mv) := by
      intro mv
      rw [List.mem_filter]
      simp [isCompetitor, and_assoc]
    by_cases h0 : ∀ mv ∈ legal, ¬ isCompetitor move mv
    · have hnil : legal.filter (fun mv =>
          decide (mv.piece.toUpper = move.piece.toUpper) && decide (mv.toSq = move.toSq) &&
            decide (mv.fromSq ≠ move.fromSq)) = [] := by
        rw [List.eq_nil_iff_forall_not_mem]
        intro mv hmv
        obtain ⟨hl, hc⟩ := (hmem mv).mp hmv
        exact h0 mv hl hc
      rw [if_pos (by rw [hnil]; rfl), if_pos h0]
    · rw [if_neg h0]
      push_neg at h0
      obtain ⟨w, hwl, hwc⟩ := h0
      have hwmem := (hmem w).mpr ⟨hwl, hwc⟩
      have hlen : ¬ (legal.filter (fun mv =>
          decide (mv.piece.toUpper = move.piece.toUpper) && decide (mv.toSq = move.toSq) &&
            decide (mv.fromSq ≠ move.fromSq))).length = 0 := by
        intro hlen0
        rw [List.length_eq_zero] at hlen0
        rw [hlen0] at hwmem
        simp at hwmem
      rw [if_neg hlen]
      by_cases h1 : ∀ mv ∈ legal, isCompetitor move mv → mv.fromSq.1 ≠ move.fromSq.1
      · have hany : (List.any (legal.filter (fun mv =>
            decide (mv.piece.toUpper = move.piece.toUpper) && decide (mv.toSq = move.toSq) &&
              decide (mv.fromSq ≠ move.fromSq)))
            fun mv => decide (mv.fromSq.1 = move.fromSq.1)) = false := by
          rw [List.any_eq_false]
          intro mv hmv
          obtain ⟨hl, hc⟩ := (hmem mv).mp hmv
          simp [h1 mv hl hc]
        rw [if_pos hany, if_pos h1]
      · have hany1 : (List.any (legal.filter (fun mv =>
            decide (mv.piece.toUpper = move.piece.toUpper) && decide (mv.toSq = move.toSq) &&
              decide (mv.fromSq ≠ move.fromSq)))
            fun mv => decide (mv.fromSq.1 = move.fromSq.1)) = true := by
          push_neg at h1
          obtain ⟨v, hvl, hvc, hveq⟩ := h1
          rw [List.any_eq_true]
          exact ⟨v, (hmem v).mpr ⟨hvl, hvc⟩, by simp [hveq]⟩
        rw [if_neg (by rw [hany1]; simp), if_neg h1]
        by_cases h2 : ∀ mv ∈ legal, isCompetitor move mv → mv.fromSq.2 ≠ move.fromSq.2
        · have hany2 : (List.any (legal.filter (fun mv =>
              decide (mv.piece.toUpper = move.piece.toUpper) && decide (mv.toSq = move.toSq) &&
                decide (mv.fromSq ≠ move.fromSq)))
              fun mv => decide (mv.fromSq.2 = move.fromSq.2)) = false := by
            rw [List.any_eq_false]
            intro mv hmv
            obtain ⟨hl, hc⟩ := (hmem mv).mp hmv
            simp [h2 mv hl hc]
          rw [if_pos hany2, if_pos h2]
        · have hany2 : (List.any (legal.filter (fun mv =>
              decide (mv.piece.toUpper = move.piece.toUpper) && decide (mv.toSq = move.toSq) &&
                decide (mv.fromSq ≠ move.fromSq)))
              fun mv => decide (mv.fromSq.2 = move.fromSq.2)) = true := by
            push_neg at h2
            obtain ⟨v, hvl, hvc, hveq⟩ := h2
            rw [List.any_eq_true]
            exact ⟨v, (hmem v).mpr ⟨hvl, hvc⟩, by simp [hveq]⟩
          rw [if_neg (by rw [hany2]; simp), if_neg h2]


/-! ## Claim C6: the game-over gate in `ChessEngine.makeMove` -/

/-- `ChessEngineErrorType` from `chessEngine.ts`. -/
inductive ChessEngineErrorType where
  | INVALID_MOVE
  | INVALID_FEN
  | INVALID_NOTATION
  | GAME_OVER
  | ILLEGAL_POSITION
  | HISTORY_ERROR
  | VALIDATION_ERROR
  | UNKNOWN_ERROR
  deriving Repr, DecidableEq

/-- `EngineOperationResult`: success flag, optional payload, optional typed
error (the error's message and context are display-only strings). -/
structure EngineOperationResult (T : Type) where
  success : Bool
  data : Option T := none
  error : Option ChessEngineErrorType := none
  deriving Repr, DecidableEq

/-- The mutable state of a `ChessEngine`: the live position and the optional
move history (`null` when `enableHistory` is off). -/
structure EngineState (P M : Type) where
  chess : P
  history : Option (MoveHistoryState P M)
  deriving Repr, DecidableEq

/-- `ChessEngine.makeMove`: reject immediately with `GAME_OVER` when the game
is over; otherwise resolve the input (algebraic text is sanitized and handed to
the engine, a move object is applied directly), reject invalid input, and on
success advance the live position and record the move in the history. -/
def makeMove {P M : Type} (O : Oracle P M (List Char)) (e : EngineState P M)
    (moveInput : List Char ⊕ M) : EngineState P M × EngineOperationResult (MEntry P M) :=
  if O.isGameOver e.chess then
    (e, { success := false, error := some ChessEngineErrorType.GAME_OVER })
  else
    match (match moveInput with
      | Sum.inl nota => O.applySan e.chess ( sanitizeNotation nota)
      | Sum.inr mv => (O.applyMove e.chess mv).map (fun p => (p, mv))) with
    | none =>
      (e, { success := false,
            error := some (match moveInput with
              | Sum.inl _ => ChessEngineErrorType.INVALID_NOTATION
              | Sum.inr _ => ChessEngineErrorType.INVALID_MOVE) })
    | some (p2, m) =>
      match e.history with
      | some h =>
        ({ chess := p2, history := some (addMove O { h with chess := p2 } m).1 },
          { success := true, data := some (addMove O { h with chess := p2 } m).2 })
      | none =>
        ({ chess := p2, history := none },
          { success := true,
            data := some
              { move := m, fen := p2, isCheck := O.isCheck p2,
                isCheckmate := O.isCheckmate p2, isStalemate := O.isStalemate p2 } })

/-- Claim C6: on a game-over position (checkmate, stalemate or draw — the
rules engine reports them all through `isGameOver`), every `makeMove`
submission — algebraic text or move object — returns an unsuccessful result
carrying the `GAME_OVER` error and leaves the position and the history
unchanged. -/
theorem makeMove_game_over {P M : Type} (O : Oracle P M (List Char)) (e : EngineState P M)
    (hgo : O.isGameOver e.chess = true) :
    ∀ moveInput, makeMove O e moveInput =
      (e, { success := false, data := none,
            error := some ChessEngineErrorType.GAME_OVER }) := by
  intro mi
  unfold makeMove
  rw [if_pos hgo]

/-- An oracle over character-list tokens for the engine-level witnesses. -/
def charOracle : Oracle Nat Nat (List Char) where
  applyMove := fun p m => if m = 99 then none else some (p + m)
  applySan := fun p t => if t.isEmpty then none else some (p + t.length, t.length)
  isCheck := fun _ => false
  isCheckmate := fun p => decide (p ≥ 1000)
  isStalemate := fun _ => false
  isDraw := fun _ => false
  isGameOver := fun p => decide (p ≥ 1000)

/-- Witness for `makeMove_game_over` on a checkmated position (1000). -/
theorem makeMove_game_over_witness :
    makeMove charOracle { chess := 1000, history := none } (Sum.inr 1) =
      ({ chess := 1000, history := none },
        { success := false, data := none,
          error := some ChessEngineErrorType.GAME_OVER }) :=
  makeMove_game_over charOracle { chess := 1000, history := none } (by decide) (Sum.inr 1)

end ChessBot
